import Mathlib

/-!
Verification of the multi-tier dictionary search engine in
`src/core/src/search.rs` (crate `dict-core`).

The Rust code is shallowly embedded: strings are lists of Unicode code
points, byte-level operations (UTF-8 lengths, byte slicing) are modelled
explicitly, `f64` scores are modelled as rationals (every score built by
`search.rs` is an exact small decimal and no NaN can arise, so rational
arithmetic mirrors the floating-point arithmetic exactly on the values
involved), and the SQLite-backed Lexicon Store is a record of the five SQL
queries `search.rs` issues, each allowed to fail (`Except Unit`).
A Rust panic is modelled as the distinguished outcome `SearchError.panicked`,
a propagated store error as `SearchError.storeError`.
-/

namespace DictApp

/-- Strings are modelled as lists of Unicode code points (Rust `char`s). -/
abbrev Str := List Char

/-- Model of Rust `str::trim`: strip whitespace from both ends. -/
def trimStr (s : Str) : Str :=
  ((s.dropWhile Char.isWhitespace).reverse.dropWhile Char.isWhitespace).reverse

/-- Model of Rust `str::to_lowercase`, applied code point by code point
(Rust additionally expands a handful of special characters to several
code points; no input considered in this development involves them). -/
def lowerStr (s : Str) : Str := s.map Char.toLower

/-- The UTF-8 byte length of a string: Rust `str::len`. -/
def utf8Len (s : Str) : Nat := (s.map Char.utf8Size).sum

/-- Rust `str::is_char_boundary`: byte offset `n` is 0, the total byte
length, or the first byte of some code point's encoding. -/
def isCharBoundary : Str → Nat → Bool
  | _, 0 => true
  | [], _ + 1 => false
  | c :: rest, n + 1 =>
      if c.utf8Size ≤ n + 1 then isCharBoundary rest (n + 1 - c.utf8Size) else false

/-- Rust byte slicing `&s[..n]`; `none` models the panic raised when `n`
is past the end or falls inside a multi-byte character. -/
def byteTake : Str → Nat → Option Str
  | _, 0 => some []
  | [], _ + 1 => none
  | c :: rest, n + 1 =>
      if c.utf8Size ≤ n + 1 then (byteTake rest (n + 1 - c.utf8Size)).map (c :: ·)
      else none

/-- Rust byte slicing `&s[n..]`; `none` models the panic on an invalid
byte offset. -/
def byteDrop : Str → Nat → Option Str
  | s, 0 => some s
  | [], _ + 1 => none
  | c :: rest, n + 1 =>
      if c.utf8Size ≤ n + 1 then byteDrop rest (n + 1 - c.utf8Size) else none

/-- Helper for `splitWs`; `acc` holds the current token reversed. -/
def splitWsAux : Str → Str → List Str
  | [], acc => if acc.isEmpty then [] else [acc.reverse]
  | c :: rest, acc =>
      if c.isWhitespace then
        if acc.isEmpty then splitWsAux rest [] else acc.reverse :: splitWsAux rest []
      else splitWsAux rest (c :: acc)

/-- Model of Rust `str::split_whitespace`: whitespace-separated tokens,
no empty tokens. -/
def splitWs (s : Str) : List Str := splitWsAux s []

/-- Outcomes that end a search call abnormally: a Rust panic, or an error
propagated (via `?`) from the SQLite store. -/
inductive SearchError
  | panicked
  | storeError
deriving DecidableEq, Repr

/-- The `SearchResult` record from `src/core/src/models.rs` (fields
`id: i64`, `word`, `pos`, `preview`, `score: f64`). -/
structure SearchResult where
  id : Int
  word : Str
  pos : Str
  preview : Str
  score : ℚ
deriving DecidableEq, Repr

/-- The Lexicon Store collaborator: the five SQL queries issued by
`search.rs`, abstracted as functions from the argument the Rust code binds
into the SQL statement. Rows arrive already converted by
`row_to_search_result` (for `ftsQ` the `score` field carries the FTS5
rank, as `SearchResult::with_score` stores it); `Except Unit` models a
failing prepare/query call. -/
structure Store where
  exactQ : Str → Nat → Except Unit (List SearchResult)
  prefixQ : Str → Nat → Except Unit (List SearchResult)
  ftsQ : Str → Nat → Except Unit (List SearchResult)
  fuzzyPrefixCand : Str → Except Unit (List SearchResult)
  fuzzySuffixCand : Str → Except Unit (List SearchResult)

instance {ε α : Type _} [DecidableEq ε] [DecidableEq α] : DecidableEq (Except ε α) := fun x y =>
  match x, y with
  | .error a, .error b =>
      if h : a = b then .isTrue (by rw [h]) else
        .isFalse (fun hc => h (by cases hc; rfl))
  | .ok a, .ok b =>
      if h : a = b then .isTrue (by rw [h]) else
        .isFalse (fun hc => h (by cases hc; rfl))
  | .error _, .ok _ => .isFalse (fun hc => Except.noConfusion hc)
  | .ok _, .error _ => .isFalse (fun hc => Except.noConfusion hc)

/-- `MAX_FUZZY_DISTANCE` from search.rs. -/
def MAX_FUZZY_DISTANCE : Nat := 2

/-- `MIN_FUZZY_QUERY_LENGTH` from search.rs. -/
def MIN_FUZZY_QUERY_LENGTH : Nat := 3

/-- Two to the 32nd: `len as u32` truncates modulo this, and
`u32::saturating_add` caps at this minus one. -/
def U32 : Nat := 4294967296

/-- First pass of `prepare_fts_query`: `query.replace('\"', "\"\"")
.replace(['*', '^', ':'], " ")`. -/
def escapeFts (query : Str) : Str :=
  (query.flatMap (fun c => if c = '\"' then ['\"', '\"'] else [c])).map
    (fun c => if c = '*' ∨ c = '^' ∨ c = ':' then ' ' else c)

/-- Model of `prepare_fts_query` from search.rs: escape FTS5 specials,
then rewrite every whitespace-separated token `t` as the prefix term
`t*`, joined by single spaces; the empty token list gives the empty
string. -/
def prepare_fts_query (query : Str) : Str :=
  let escaped := escapeFts query
  let words := splitWs escaped
  if words.isEmpty then []
  else List.intercalate [' '] (words.map (fun w => w ++ ['*']))

/-- The three-dot ellipsis marker appended by `truncate_preview`. -/
def ellipsisStr : Str := ['.', '.', '.']

/-- Character index of the last space, modelling `str::rfind(' ')`:
Rust returns the byte offset of that space and slices up to it, which
keeps exactly the characters before the space. -/
def lastSpaceIdx : Str → Option Nat
  | [] => none
  | c :: rest =>
      match lastSpaceIdx rest with
      | some i => some (i + 1)
      | none => if c = ' ' then some 0 else none

/-- The boundary search loop of `truncate_preview`:
`while end > 0 && !text.is_char_boundary(end) { end -= 1 }`. -/
def findBoundaryDown (s : Str) : Nat → Nat
  | 0 => 0
  | e + 1 => if isCharBoundary s (e + 1) then e + 1 else findBoundaryDown s e

/-- Model of `truncate_preview` from search.rs; a `none` result would be
a Rust panic (a byte slice at an invalid offset). -/
def truncate_preview (text : Str) (max_len : Nat) : Option Str :=
  if utf8Len text ≤ max_len then some text
  else
    match byteTake text (findBoundaryDown text max_len) with
    | none => none
    | some truncated =>
        match lastSpaceIdx truncated with
        | some i => some (truncated.take i ++ ellipsisStr)
        | none => some (truncated ++ ellipsisStr)

/-- Substitution cost of the Wagner-Fischer recurrence:
`if a_chars[i-1] == b_chars[j-1] { 0 } else { 1 }`. -/
def levCost (x y : Char) : Nat := if x = y then 0 else 1

/-- Inner loop of `levenshtein_distance` (search.rs lines 359-373): given
the remaining characters of `a`, the tail of the previous row starting at
entry `i - 1` (`diag`), and the last computed entry of the current row
(`left`), produce the current row's entries from `i` on. -/
def levRowAux (bc : Char) : Str → List Nat → Nat → List Nat
  | [], _, _ => []
  | _ :: _, [], _ => []
  | ac :: arest, diag :: prest, left =>
      let cell := min (min (prest.headD 0 + 1) (left + 1)) (diag + levCost ac bc)
      cell :: levRowAux bc arest prest cell

/-- Outer loop of `levenshtein_distance` (search.rs lines 356-376): fold
over the characters of `b` with the running row index `j`, carrying the
previous row. -/
def levLoop (aChars : Str) : Str → Nat → List Nat → List Nat
  | [], _, prev => prev
  | bc :: brest, j, prev => levLoop aChars brest (j + 1) (j :: levRowAux bc aChars prev j)

/-- The two-row loop of `levenshtein_distance` for `a.length ≤ b.length`:
start from row 0 = `0, 1, ..., m` and return entry `m` of the final row. -/
def levCompute (a b : Str) : Nat :=
  (levLoop a b 1 (List.range (a.length + 1))).getD a.length 0

/-- Model of `levenshtein_distance` from search.rs. The Rust function's
single recursive call `levenshtein_distance(b, a)` (taken when `m > n`)
re-enters with the shorter string first and immediately reaches the loop,
so it is inlined here as `levCompute b a`. -/
def levenshtein_distance (a b : Str) : Nat :=
  if a.length = 0 then b.length
  else if b.length = 0 then a.length
  else if b.length < a.length then levCompute b a
  else levCompute a b

/-- The scoring filter of `search_fuzzy` (both candidate loops): keep a
candidate only if `0 < distance ≤ MAX_FUZZY_DISTANCE` against the
lowercased word, setting `score = 3.0 + distance`. -/
def fuzzyKeep (query : Str) (r : SearchResult) : Option SearchResult :=
  let word_lower := lowerStr r.word
  let distance := levenshtein_distance query word_lower
  if 0 < distance ∧ distance ≤ MAX_FUZZY_DISTANCE then
    some { r with score := 3 + (distance : ℚ) }
  else none

/-- Second candidate loop of `search_fuzzy` (search.rs lines 243-256):
skip candidates whose id is already present, otherwise apply the same
distance filter and push. -/
def addSuffixCands (query : Str) (acc : List SearchResult) : List SearchResult → List SearchResult
  | [] => acc
  | r :: rs =>
      if acc.any (fun x => x.id = r.id) then addSuffixCands query acc rs
      else
        match fuzzyKeep query r with
        | some r' => addSuffixCands query (acc ++ [r']) rs
        | none => addSuffixCands query acc rs

/-- Stable sort ascending by `score`, modelling
`sort_by(|a, b| a.score.partial_cmp(&b.score).unwrap_or(Equal))`.
Rust's `sort_by` is a stable sort; on a total preorder comparator a
stable sort's output is uniquely determined, so the stable
`insertionSort` is extensionally the same function. With rational scores
the comparator never hits the `unwrap_or` fallback (no NaN). -/
def sortByScore (l : List SearchResult) : List SearchResult :=
  l.insertionSort (fun a b => a.score ≤ b.score)

/-- Model of `search_fuzzy` from search.rs: take up to 1000 candidates
matching `LIKE 'pp%'` where `pp` is the first `min(2, query.len())`
BYTES of the query (a byte slice that panics inside a multi-byte
character), filter by distance; if still short of `limit` and the query
has at least 2 bytes, add candidates matching `LIKE '_%suffix%'` where
`suffix` is the query minus its first byte, skipping ids already found;
finally sort by score and truncate to `limit`. -/
def search_fuzzy (s : Store) (query : Str) (limit : Nat) :
    Except SearchError (List SearchResult) :=
  match byteTake query (min 2 (utf8Len query)) with
  | none => .error .panicked
  | some pre =>
      match s.fuzzyPrefixCand (pre ++ ['%']) with
      | .error _ => .error .storeError
      | .ok candidates =>
          let fuzzy1 := candidates.filterMap (fuzzyKeep query)
          match
            (if fuzzy1.length < limit ∧ 2 ≤ utf8Len query then
              match byteDrop query 1 with
              | none => Except.error SearchError.panicked
              | some suffix =>
                  match s.fuzzySuffixCand (['_', '%'] ++ suffix ++ ['%']) with
                  | .error _ => Except.error SearchError.storeError
                  | .ok more => Except.ok (addSuffixCands query fuzzy1 more)
            else Except.ok fuzzy1) with
          | .error e => .error e
          | .ok fuzzy2 => .ok ((sortByScore fuzzy2).take limit)

/-- Model of `search_exact`: `SELECT ... WHERE w.word = ? LIMIT ?`. -/
def search_exact (s : Store) (word : Str) (limit : Nat) :
    Except Unit (List SearchResult) :=
  s.exactQ word limit

/-- Model of `search_prefix'`: builds the pattern `prefix%` and runs
`SELECT ... WHERE w.word LIKE ? ORDER BY length(w.word), w.word LIMIT ?`
(the Rust name is `search_prefix`). -/
def search_prefix' (s : Store) (pfx : Str) (limit : Nat) :
    Except Unit (List SearchResult) :=
  s.prefixQ (pfx ++ ['%']) limit

/-- Model of `search_fts`: `... WHERE words_fts MATCH ? ORDER BY rank
LIMIT ?`; each row's `score` field is the FTS5 rank. -/
def search_fts (s : Store) (q : Str) (limit : Nat) :
    Except Unit (List SearchResult) :=
  s.ftsQ q limit

/-- Score of a prefix-tier result: `1.0 + (len_diff as f64 * 0.1)` with
`len_diff = word.len().saturating_sub(query.len())` in bytes; `0.1` is
modelled as the exact rational 1/10 (written with the executable
`mkRat`). -/
def prefixScore (query : Str) (r : SearchResult) : ℚ :=
  1 + ((utf8Len r.word - utf8Len query : Nat) : ℚ) * mkRat 1 10

/-- Model of `f64::abs`, written as an executable branch. -/
def ratAbs (x : ℚ) : ℚ := if x < 0 then -x else x

/-- Score of an FTS-tier result: `2.0 + rank.abs()`. -/
def ftsScore (r : SearchResult) : ℚ := 2 + ratAbs r.score

/-- The dedup-append loop shared by the prefix, FTS and fuzzy tiers of
`search_words_offset`: for each new result, if no accumulated result has
the same id, set its score with `f` and push it at the end. -/
def mergeScored (f : SearchResult → ℚ) (acc : List SearchResult) :
    List SearchResult → List SearchResult
  | [] => acc
  | r :: rs =>
      if acc.any (fun x => x.id = r.id) then mergeScored f acc rs
      else mergeScored f (acc ++ [{ r with score := f r }]) rs

/-- Tier 2 of `search_words_offset` (search.rs lines 61-75): prefix
matches, run only while the accumulated count (as `u32`) is below
`total_needed`. -/
def prefixTier (s : Store) (query : Str) (total_needed : Nat)
    (results : List SearchResult) : Except SearchError (List SearchResult) :=
  if results.length % U32 < total_needed then
    match search_prefix' s query (total_needed - results.length % U32) with
    | .error _ => .error .storeError
    | .ok pr => .ok (mergeScored (prefixScore query) results pr)
  else .ok results

/-- Tier 3 of `search_words_offset` (search.rs lines 77-89): FTS matches
on the prepared query, run only while the accumulated count is below
`total_needed`; there is no emptiness check on `fts_query`. -/
def ftsTier (s : Store) (fts_query : Str) (total_needed : Nat)
    (results : List SearchResult) : Except SearchError (List SearchResult) :=
  if results.length % U32 < total_needed then
    match search_fts s fts_query (total_needed - results.length % U32) with
    | .error _ => .error .storeError
    | .ok fr => .ok (mergeScored ftsScore results fr)
  else .ok results

/-- Tier 4 of `search_words_offset` (search.rs lines 91-101): fuzzy
matches, run only while short of `total_needed` and the lowercased query
has at least `MIN_FUZZY_QUERY_LENGTH` bytes; fuzzy results keep the
scores `search_fuzzy` assigned. -/
def fuzzyTier (s : Store) (query_lower : Str) (total_needed : Nat)
    (results : List SearchResult) : Except SearchError (List SearchResult) :=
  if results.length % U32 < total_needed ∧ MIN_FUZZY_QUERY_LENGTH ≤ utf8Len query_lower then
    match search_fuzzy s query_lower (total_needed - results.length % U32) with
    | .error e => .error e
    | .ok fz => .ok (mergeScored (fun r => r.score) results fz)
  else .ok results

/-- The candidate-gathering phase of `search_words_offset`: exact
matches (each given score 0), then the prefix, FTS and fuzzy tiers in
order. -/
def gatherResults (s : Store) (query query_lower fts_query : Str)
    (total_needed : Nat) : Except SearchError (List SearchResult) :=
  match search_exact s query total_needed with
  | .error _ => .error .storeError
  | .ok ex =>
      match prefixTier s query total_needed (ex.map (fun r => { r with score := 0 })) with
      | .error e => .error e
      | .ok r1 =>
          match ftsTier s fts_query total_needed r1 with
          | .error e => .error e
          | .ok r2 => fuzzyTier s query_lower total_needed r2

/-- The pagination slice of `search_words_offset`:
`start = min(offset, len)`, `end = min(start + limit, len)`,
result `results[start..end]`. -/
def sliceWindow {α : Type _} (l : List α) (limit offset : Nat) : List α :=
  let start := min offset l.length
  let stop := min (start + limit) l.length
  (l.drop start).take (stop - start)

/-- Model of `search_words_offset` from search.rs: trim the query
(empty means an immediate empty result), compute
`total_needed = offset.saturating_add(limit)`, gather candidates through
the four tiers, sort stably by score ascending, and slice the window
`[min(offset, len), min(offset + limit, len))`. -/
def search_words_offset (s : Store) (query : Str) (limit offset : Nat) :
    Except SearchError (List SearchResult) :=
  let query := trimStr query
  if query.isEmpty then .ok []
  else
    let total_needed := min (offset + limit) (U32 - 1)
    let query_lower := lowerStr query
    let fts_query := prepare_fts_query query
    match gatherResults s query query_lower fts_query total_needed with
    | .error e => .error e
    | .ok results => .ok (sliceWindow (sortByScore results) limit offset)

/-- Model of `search_words`: search with offset 0. -/
def search_words (s : Store) (query : Str) (limit : Nat) :
    Except SearchError (List SearchResult) :=
  search_words_offset s query limit 0

/-- Reference Wagner-Fischer table: `levT a b i j` is the edit distance
between the first `i` characters of `a` and the first `j` characters of
`b`, written directly from the recurrence in search.rs (deletion,
insertion, substitution, in that order). The loop implementation is
proved equal to this table below. -/
def levT (a b : Str) : Nat → Nat → Nat
  | i, 0 => i
  | 0, j + 1 => j + 1
  | i + 1, j + 1 =>
      min (min (levT a b (i + 1) j + 1) (levT a b i (j + 1) + 1))
          (levT a b i j + levCost (a.getD i '*') (b.getD j '*'))
termination_by i j => (j, i)

/-- The property guaranteed for every result the fuzzy tier emits: its
distance `d` to the (lowercased) query satisfies `0 < d ≤
MAX_FUZZY_DISTANCE` and its score is `3.0 + d`. -/
def fuzzyInv (q : Str) (r : SearchResult) : Prop :=
  0 < levenshtein_distance q (lowerStr r.word) ∧
    levenshtein_distance q (lowerStr r.word) ≤ MAX_FUZZY_DISTANCE ∧
    r.score = 3 + (levenshtein_distance q (lowerStr r.word) : ℚ)

/-- Ids of a search outcome (empty for an error), used to state the
pagination counterexample. -/
def idsOf (e : Except SearchError (List SearchResult)) : List Int :=
  match e with
  | .ok l => l.map (fun r => r.id)
  | .error _ => []

/-- A store with no rows at all; every query succeeds with zero rows. -/
def emptyStore : Store :=
  { exactQ := fun _ _ => .ok [], prefixQ := fun _ _ => .ok [],
    ftsQ := fun _ _ => .ok [],
    fuzzyPrefixCand := fun _ => .ok [], fuzzySuffixCand := fun _ => .ok [] }

/-- A store with no rows whose FTS index rejects the empty MATCH query,
exactly as SQLite FTS5 does (`MATCH ''` is a syntax error): used to
evaluate the empty-prepared-query path. -/
def sC1 : Store :=
  { exactQ := fun _ _ => .ok [], prefixQ := fun _ _ => .ok [],
    ftsQ := fun q _ => if q.isEmpty then .error () else .ok [],
    fuzzyPrefixCand := fun _ => .ok [], fuzzySuffixCand := fun _ => .ok [] }

/-- Prefix-tier row for the pagination counterexample: headword of 14
bytes, so the prefix score for the 2-byte query `wx` is
`1.0 + 12 * 0.1 = 2.2`. -/
def P1 : SearchResult :=
  { id := 1, word := "wxaaaaaaaaaaaa".data, pos := [], preview := [], score := 0 }

/-- Second prefix-tier row, same shape as `P1`. -/
def P2 : SearchResult :=
  { id := 2, word := "wxbbbbbbbbbbbb".data, pos := [], preview := [], score := 0 }

/-- FTS-tier row with rank `-0.1`, so its merged score is `2.1`, ahead
of the prefix rows' `2.2`. -/
def F1 : SearchResult :=
  { id := 3, word := "wxc".data, pos := [], preview := [], score := -(mkRat 1 10) }

/-- Second FTS-tier row, same shape as `F1`. -/
def F2 : SearchResult :=
  { id := 4, word := "wxd".data, pos := [], preview := [], score := -(mkRat 1 10) }

/-- Store for the pagination counterexample: two prefix matches for
`wx` (pattern `wx%`) whose scores land in the 2.2 band, and two FTS
matches for the prepared query `wx*` whose scores land in the lower 2.1
band; the SQL `LIMIT` is honoured via `take`. -/
def sC5 : Store :=
  { exactQ := fun _ _ => .ok [],
    prefixQ := fun p n => if p = "wx%".data then .ok ([P1, P2].take n) else .ok [],
    ftsQ := fun q n => if q = "wx*".data then .ok ([F1, F2].take n) else .ok [],
    fuzzyPrefixCand := fun _ => .ok [], fuzzySuffixCand := fun _ => .ok [] }

/-- Store holding a single word `hello` reachable through the fuzzy
prefix-candidate query `he%`. -/
def sC7 : Store :=
  { exactQ := fun _ _ => .ok [], prefixQ := fun _ _ => .ok [],
    ftsQ := fun _ _ => .ok [],
    fuzzyPrefixCand := fun p =>
      if p = "he%".data then
        .ok [{ id := 11, word := "hello".data, pos := [], preview := [], score := 0 }]
      else .ok [],
    fuzzySuffixCand := fun _ => .ok [] }

/-- The row returned for the verbatim word `hello` (its stored rank
field is deliberately nonzero to check that the exact tier overwrites
it with 0). -/
def r8 : SearchResult :=
  { id := 7, word := "hello".data, pos := "interjection".data, preview := [], score := 5 }

/-- Store whose exact lookup finds `hello`. -/
def s8 : Store :=
  { exactQ := fun w n => if w = "hello".data ∧ n = 1 then .ok [r8] else .ok [],
    prefixQ := fun _ _ => .ok [], ftsQ := fun _ _ => .ok [],
    fuzzyPrefixCand := fun _ => .ok [], fuzzySuffixCand := fun _ => .ok [] }

/-- First exact row of the duplicate-free witness store. -/
def A4 : SearchResult := { id := 21, word := "ab".data, pos := [], preview := [], score := 0 }

/-- Second exact row of the duplicate-free witness store. -/
def B4 : SearchResult := { id := 22, word := "ab".data, pos := [], preview := [], score := 0 }

/-- Store whose exact lookup returns two rows with distinct ids (as the
`words` table's `INTEGER PRIMARY KEY` guarantees). -/
def s4 : Store :=
  { exactQ := fun _ _ => .ok [A4, B4], prefixQ := fun _ _ => .ok [],
    ftsQ := fun _ _ => .ok [],
    fuzzyPrefixCand := fun _ => .ok [], fuzzySuffixCand := fun _ => .ok [] }

/-- The multi-byte preview text from the repository's own regression
test `test_truncate_preview_multibyte_utf8` (the subscript digits are
3-byte characters). -/
def chemText : Str := "Chemical formula: C₁₅H₂₀O₄ is important".data

instance : IsTotal SearchResult (fun a b => a.score ≤ b.score) :=
  ⟨fun a b => le_total a.score b.score⟩

instance : IsTrans SearchResult (fun a b => a.score ≤ b.score) :=
  ⟨fun _ _ _ h₁ h₂ => le_trans h₁ h₂⟩

lemma levT_zero_right (a b : Str) (i : Nat) : levT a b i 0 = i := by
  simp [levT]

lemma levT_zero_left (a b : Str) (j : Nat) : levT a b 0 j = j := by
  cases j <;> simp [levT]

lemma levCost_symm (x y : Char) : levCost x y = levCost y x := by
  simp only [levCost, eq_comm]

lemma levT_symm (a b : Str) (i j : Nat) : levT a b i j = levT b a j i := by
  induction j generalizing i with
  | zero => simp [levT_zero_right, levT_zero_left]
  | succ j ihj =>
    induction i with
    | zero => simp [levT_zero_left, levT_zero_right]
    | succ i ihi =>
      simp only [levT]
      rw [ihj (i + 1), ihi, ihj i, levCost_symm]
      omega

lemma levT_diag (a : Str) (i : Nat) : levT a a i i = 0 := by
  induction i with
  | zero => simp [levT_zero_left]
  | succ i ih =>
    simp only [levT]
    rw [ih]
    simp [levCost]

lemma levRowAux_spec (a b : Str) (jp : Nat) :
    ∀ (as_ : Str) (i0 : Nat), as_ = a.drop i0 →
      levRowAux (b.getD jp '*') as_
        ((List.range' i0 (a.length - i0 + 1)).map (fun i => levT a b i jp))
        (levT a b i0 (jp + 1))
      = (List.range' (i0 + 1) (a.length - i0)).map (fun i => levT a b i (jp + 1)) := by
  intro as_
  induction as_ with
  | nil =>
    intro i0 h
    have hlen : a.length ≤ i0 := List.drop_eq_nil_iff_le.mp h.symm
    have h0 : a.length - i0 = 0 := Nat.sub_eq_zero_of_le hlen
    rw [h0]
    simp [levRowAux, List.range'_succ]
  | cons ac as' ih =>
    intro i0 h
    have hi0 : i0 < a.length := by
      by_contra hc
      push_neg at hc
      rw [List.drop_eq_nil_iff_le.mpr hc] at h
      exact List.noConfusion h
    have hget : a.get? i0 = some ac := by
      have := List.get?_drop a i0 0
      rw [← h] at this
      simpa using this.symm
    have hac : a.getD i0 '*' = ac := by
      rw [List.getD_eq_get?, hget]
      rfl
    have has' : as' = a.drop (i0 + 1) := by
      have := congrArg List.tail h
      simpa [List.tail_drop] using this
    have hlen1 : a.length - i0 = (a.length - (i0 + 1)) + 1 := by omega
    rw [hlen1, List.range'_succ, List.range'_succ]
    simp only [List.map_cons, levRowAux, List.headD_cons]
    have hcell :
        min (min (levT a b (i0 + 1) jp + 1) (levT a b i0 (jp + 1) + 1))
            (levT a b i0 jp + levCost ac (b.getD jp '*'))
        = levT a b (i0 + 1) (jp + 1) := by
      conv_rhs => rw [levT]
      rw [hac]
    rw [hcell]
    have hrec := ih (i0 + 1) has'
    rw [List.range'_succ] at hrec
    simp only [List.map_cons] at hrec
    rw [hrec]

lemma levLoop_spec (a b : Str) :
    ∀ (bs : Str) (jp : Nat), bs = b.drop jp → jp ≤ b.length →
      levLoop a bs (jp + 1) ((List.range' 0 (a.length + 1)).map (fun i => levT a b i jp))
      = (List.range' 0 (a.length + 1)).map (fun i => levT a b i b.length) := by
  intro bs
  induction bs with
  | nil =>
    intro jp h hle
    have hge : b.length ≤ jp := List.drop_eq_nil_iff_le.mp h.symm
    have hjp : jp = b.length := le_antisymm hle hge
    rw [hjp]
    simp [levLoop]
  | cons bc bs' ih =>
    intro jp h hle
    have hjp : jp < b.length := by
      by_contra hc
      push_neg at hc
      rw [List.drop_eq_nil_iff_le.mpr hc] at h
      exact List.noConfusion h
    have hget : b.get? jp = some bc := by
      have := List.get?_drop b jp 0
      rw [← h] at this
      simpa using this.symm
    have hbc : b.getD jp '*' = bc := by
      rw [List.getD_eq_get?, hget]
      rfl
    have hbs' : bs' = b.drop (jp + 1) := by
      have := congrArg List.tail h
      simpa [List.tail_drop] using this
    simp only [levLoop]
    have hrow := levRowAux_spec a b jp a 0 (by simp)
    rw [hbc] at hrow
    simp only [Nat.sub_zero, levT_zero_left] at hrow
    have hnew : (jp + 1) :: levRowAux bc a
          ((List.range' 0 (a.length + 1)).map (fun i => levT a b i jp)) (jp + 1)
        = (List.range' 0 (a.length + 1)).map (fun i => levT a b i (jp + 1)) := by
      rw [hrow]
      rw [List.range'_succ]
      simp [levT_zero_left]
    rw [hnew]
    exact ih (jp + 1) hbs' hjp

lemma levCompute_eq (a b : Str) : levCompute a b = levT a b a.length b.length := by
  unfold levCompute
  have h0 : List.range (a.length + 1)
      = (List.range' 0 (a.length + 1)).map (fun i => levT a b i 0) := by
    rw [List.range_eq_range']
    rw [show (fun i => levT a b i 0) = (fun i : Nat => i) from funext (levT_zero_right a b)]
    simp
  rw [h0]
  have hloop := levLoop_spec a b b 0 (by simp) (Nat.zero_le _)
  rw [Nat.zero_add] at hloop
  rw [hloop]
  rw [List.getD_eq_get?, List.get?_map, List.get?_range' 0 1 (Nat.lt_succ_self a.length)]
  simp

lemma levenshtein_eq_levT (a b : Str) :
    levenshtein_distance a b = levT a b a.length b.length := by
  unfold levenshtein_distance
  split
  · rename_i h
    rw [h, levT_zero_left]
  · split
    · rename_i h
      rw [h, levT_zero_right]
    · split
      · rw [levCompute_eq, levT_symm]
      · rw [levCompute_eq]

lemma levenshtein_self (x : Str) : levenshtein_distance x x = 0 := by
  rw [levenshtein_eq_levT, levT_diag]

lemma levenshtein_symm_lemma (a b : Str) :
    levenshtein_distance a b = levenshtein_distance b a := by
  rw [levenshtein_eq_levT, levenshtein_eq_levT, levT_symm]

lemma levenshtein_nil_left (b : Str) : levenshtein_distance [] b = b.length := by
  simp [levenshtein_distance]

lemma levenshtein_nil_right (a : Str) : levenshtein_distance a [] = a.length := by
  cases a <;> simp [levenshtein_distance]

lemma isCharBoundary_zero (s : Str) : isCharBoundary s 0 = true := by
  cases s <;> simp [isCharBoundary]

lemma findBoundaryDown_boundary (s : Str) :
    ∀ e, isCharBoundary s (findBoundaryDown s e) = true := by
  intro e
  induction e with
  | zero => simpa [findBoundaryDown] using isCharBoundary_zero s
  | succ e ih =>
    simp only [findBoundaryDown]
    split
    · assumption
    · exact ih

lemma findBoundaryDown_le (s : Str) : ∀ e, findBoundaryDown s e ≤ e := by
  intro e
  induction e with
  | zero => simp [findBoundaryDown]
  | succ e ih =>
    simp only [findBoundaryDown]
    split
    · exact le_refl _
    · exact le_trans ih (Nat.le_succ e)

lemma byteTake_isSome_of_boundary :
    ∀ (s : Str) (n : Nat), isCharBoundary s n = true → ∃ t, byteTake s n = some t := by
  intro s
  induction s with
  | nil =>
    intro n h
    cases n with
    | zero => exact ⟨[], rfl⟩
    | succ n =>
      rw [isCharBoundary.eq_def] at h
      simp at h
  | cons c rest ih =>
    intro n h
    cases n with
    | zero => exact ⟨[], rfl⟩
    | succ n =>
      rw [isCharBoundary.eq_def] at h
      simp only [] at h
      split at h
      · rename_i hsz
        obtain ⟨t, ht⟩ := ih _ h
        refine ⟨c :: t, ?_⟩
        rw [byteTake.eq_def]
        simp only [if_pos hsz, ht]
        rfl
      · exact absurd h (by simp)

lemma byteTake_utf8Len :
    ∀ (s : Str) (n : Nat) (t : Str), byteTake s n = some t → utf8Len t = n := by
  intro s
  induction s with
  | nil =>
    intro n t h
    cases n with
    | zero =>
      rw [byteTake.eq_def] at h
      simp at h
      simp [h, utf8Len]
    | succ n =>
      rw [byteTake.eq_def] at h
      simp at h
  | cons c rest ih =>
    intro n t h
    cases n with
    | zero =>
      rw [byteTake.eq_def] at h
      simp at h
      simp [h, utf8Len]
    | succ n =>
      rw [byteTake.eq_def] at h
      simp only [] at h
      split at h
      · rename_i hsz
        cases ht' : byteTake rest (n + 1 - c.utf8Size) with
        | none => rw [ht'] at h; simp at h
        | some t' =>
          rw [ht'] at h
          have hct : t = c :: t' := by simpa using h.symm
          have := ih _ _ ht'
          rw [hct]
          simp only [utf8Len, List.map_cons, List.sum_cons]
          have hpos := c.utf8Size_pos
          simp only [utf8Len] at this
          omega
      · simp at h

lemma utf8Len_append (a b : Str) : utf8Len (a ++ b) = utf8Len a + utf8Len b := by
  simp [utf8Len]

lemma utf8Len_take_le (l : Str) (i : Nat) : utf8Len (l.take i) ≤ utf8Len l := by
  unfold utf8Len
  rw [List.map_take]
  exact List.Sublist.sum_le_sum (List.take_sublist _ _) (fun a _ => Nat.zero_le a)

lemma utf8Len_ellipsis : utf8Len ellipsisStr = 3 := by decide

lemma truncate_preview_spec (text : Str) (max_len : Nat) :
    ∃ res, truncate_preview text max_len = some res ∧
      utf8Len res ≤ utf8Len text + utf8Len ellipsisStr ∧
      (utf8Len text ≤ max_len → res = text) ∧
      (max_len < utf8Len text →
        isCharBoundary text (findBoundaryDown text max_len) = true ∧
        ∃ pre, res = pre ++ ellipsisStr ∧ utf8Len pre ≤ max_len) := by
  unfold truncate_preview
  split
  · rename_i hle
    exact ⟨text, rfl, by omega, fun _ => rfl, fun hlt => absurd hle (by omega)⟩
  · rename_i hgt
    push_neg at hgt
    have hb := findBoundaryDown_boundary text max_len
    obtain ⟨t, ht⟩ := byteTake_isSome_of_boundary text _ hb
    have hlen : utf8Len t = findBoundaryDown text max_len := byteTake_utf8Len _ _ _ ht
    have hfle : findBoundaryDown text max_len ≤ max_len := findBoundaryDown_le text max_len
    rw [ht]
    dsimp only
    cases hsp : lastSpaceIdx t with
    | some i =>
      dsimp only
      refine ⟨t.take i ++ ellipsisStr, rfl, ?_, fun h => absurd h (by omega),
        fun _ => ⟨hb, t.take i, rfl, ?_⟩⟩
      · rw [utf8Len_append]
        have := utf8Len_take_le t i
        omega
      · have := utf8Len_take_le t i
        omega
    | none =>
      dsimp only
      refine ⟨t ++ ellipsisStr, rfl, ?_, fun h => absurd h (by omega),
        fun _ => ⟨hb, t, rfl, by omega⟩⟩
      rw [utf8Len_append]
      omega

lemma sortByScore_pairwise (l : List SearchResult) :
    List.Pairwise (fun a b : SearchResult => a.score ≤ b.score) (sortByScore l) :=
  List.sorted_insertionSort _ l

lemma sortByScore_perm (l : List SearchResult) : (sortByScore l).Perm l :=
  List.perm_insertionSort _ l

lemma mergeScored_mem (f : SearchResult → ℚ) :
    ∀ (rs acc : List SearchResult) (x : SearchResult), x ∈ mergeScored f acc rs →
      x ∈ acc ∨ ∃ r ∈ rs, x = { r with score := f r } := by
  intro rs
  induction rs with
  | nil =>
    intro acc x hx
    exact Or.inl hx
  | cons r rs ih =>
    intro acc x hx
    simp only [mergeScored] at hx
    split at hx
    · rcases ih _ _ hx with h | ⟨r', hr', he⟩
      · exact Or.inl h
      · exact Or.inr ⟨r', List.mem_cons_of_mem _ hr', he⟩
    · rcases ih _ _ hx with h | ⟨r', hr', he⟩
      · rcases List.mem_append.mp h with h | h
        · exact Or.inl h
        · exact Or.inr ⟨r, List.mem_cons_self _ _, by simpa using h⟩
      · exact Or.inr ⟨r', List.mem_cons_of_mem _ hr', he⟩

lemma mergeScored_forall (P : SearchResult → Prop) (f : SearchResult → ℚ)
    (rs acc : List SearchResult) (hacc : ∀ x ∈ acc, P x)
    (hnew : ∀ r ∈ rs, P { r with score := f r }) :
    ∀ x ∈ mergeScored f acc rs, P x := by
  intro x hx
  rcases mergeScored_mem f rs acc x hx with h | ⟨r, hr, he⟩
  · exact hacc x h
  · rw [he]
    exact hnew r hr

lemma mergeScored_nodup (f : SearchResult → ℚ) :
    ∀ (rs acc : List SearchResult), ((acc.map (fun r => r.id)).Nodup) →
      ((mergeScored f acc rs).map (fun r => r.id)).Nodup := by
  intro rs
  induction rs with
  | nil =>
    intro acc h
    exact h
  | cons r rs ih =>
    intro acc h
    simp only [mergeScored]
    split
    · exact ih _ h
    · rename_i hany
      apply ih
      rw [List.map_append]
      rw [List.nodup_append]
      refine ⟨h, by simp, ?_⟩
      intro a ha hb
      simp only [List.map_cons, List.map_nil, List.mem_singleton] at hb
      rcases List.mem_map.mp ha with ⟨y, hy, hya⟩
      have hno : ∀ x ∈ acc, ¬ x.id = r.id := by simpa using hany
      exact hno y hy (by rw [hya, hb])
lemma fuzzyKeep_some {q : Str} {c r : SearchResult} (h : fuzzyKeep q c = some r) :
    r.word = c.word ∧ r.id = c.id ∧ fuzzyInv q r := by
  simp only [fuzzyKeep] at h
  split at h
  · rename_i hcond
    simp only [Option.some.injEq] at h
    rw [← h]
    refine ⟨rfl, rfl, hcond.1, hcond.2, rfl⟩
  · exact absurd h (by simp)

lemma filterMap_fuzzyInv (q : Str) (cands : List SearchResult) :
    ∀ x ∈ cands.filterMap (fuzzyKeep q), fuzzyInv q x := by
  intro x hx
  rcases List.mem_filterMap.mp hx with ⟨c, _, hc⟩
  exact (fuzzyKeep_some hc).2.2

lemma addSuffixCands_mem (q : Str) :
    ∀ (rs acc : List SearchResult) (x : SearchResult), x ∈ addSuffixCands q acc rs →
      x ∈ acc ∨ ∃ c, fuzzyKeep q c = some x := by
  intro rs
  induction rs with
  | nil =>
    intro acc x hx
    exact Or.inl hx
  | cons r rs ih =>
    intro acc x hx
    simp only [addSuffixCands] at hx
    split at hx
    · exact ih _ _ hx
    · cases hk : fuzzyKeep q r with
      | none =>
        rw [hk] at hx
        exact ih _ _ hx
      | some r' =>
        rw [hk] at hx
        rcases ih _ _ hx with h | h
        · rcases List.mem_append.mp h with h | h
          · exact Or.inl h
          · exact Or.inr ⟨r, by rw [hk, List.mem_singleton.mp h]⟩
        · exact Or.inr h

lemma search_fuzzy_ok_shape {s : Store} {q : Str} {lim : Nat} {res : List SearchResult}
    (h : search_fuzzy s q lim = .ok res) :
    ∃ fuzzy2, (∀ x ∈ fuzzy2, fuzzyInv q x) ∧ res = (sortByScore fuzzy2).take lim := by
  unfold search_fuzzy at h
  cases hbt : byteTake q (min 2 (utf8Len q)) with
  | none =>
    rw [hbt] at h
    exact absurd h (by simp)
  | some pre =>
    rw [hbt] at h
    dsimp only at h
    cases hpc : s.fuzzyPrefixCand (pre ++ ['%']) with
    | error e =>
      rw [hpc] at h
      exact absurd h (by simp)
    | ok cands =>
      rw [hpc] at h
      dsimp only at h
      split at h
      · exact absurd h (by simp)
      · rename_i fuzzy2 heq
        simp only [Except.ok.injEq] at h
        refine ⟨fuzzy2, ?_, h.symm⟩
        intro x hx
        split at heq
        · cases hbd : byteDrop q 1 with
          | none =>
            rw [hbd] at heq
            exact absurd heq (by simp)
          | some suffix =>
            rw [hbd] at heq
            dsimp only at heq
            cases hsc : s.fuzzySuffixCand (['_', '%'] ++ suffix ++ ['%']) with
            | error e =>
              rw [hsc] at heq
              exact absurd heq (by simp)
            | ok more =>
              rw [hsc] at heq
              simp only [Except.ok.injEq] at heq
              rw [← heq] at hx
              rcases addSuffixCands_mem q more _ x hx with hmem | ⟨c, hc⟩
              · exact filterMap_fuzzyInv q cands x hmem
              · exact (fuzzyKeep_some hc).2.2
        · simp only [Except.ok.injEq] at heq
          rw [← heq] at hx
          exact filterMap_fuzzyInv q cands x hx

lemma search_fuzzy_ok {s : Store} {q : Str} {lim : Nat} {res : List SearchResult}
    (h : search_fuzzy s q lim = .ok res) :
    res.length ≤ lim ∧
      List.Pairwise (fun a b : SearchResult => a.score ≤ b.score) res ∧
      ∀ r ∈ res, fuzzyInv q r := by
  rcases search_fuzzy_ok_shape h with ⟨fuzzy2, hinv, rfl⟩
  refine ⟨List.length_take_le _ _, ?_, ?_⟩
  · exact List.Pairwise.sublist (List.take_sublist _ _) (sortByScore_pairwise fuzzy2)
  · intro r hr
    have hr2 : r ∈ sortByScore fuzzy2 := (List.take_sublist _ _).subset hr
    exact hinv r ((sortByScore_perm fuzzy2).subset hr2)

lemma prefixScore_nonneg (q : Str) (r : SearchResult) : 0 ≤ prefixScore q r := by
  unfold prefixScore
  positivity

lemma ratAbs_nonneg (x : ℚ) : 0 ≤ ratAbs x := by
  unfold ratAbs
  split
  · linarith
  · linarith

lemma ftsScore_nonneg (r : SearchResult) : 0 ≤ ftsScore r := by
  unfold ftsScore
  have := ratAbs_nonneg r.score
  linarith

lemma fuzzyInv_nonneg {q : Str} {r : SearchResult} (h : fuzzyInv q r) : 0 ≤ r.score := by
  rcases h with ⟨_, _, hs⟩
  rw [hs]
  positivity

lemma prefixTier_nonneg {s : Store} {q : Str} {t : Nat} {acc L : List SearchResult}
    (hacc : ∀ x ∈ acc, 0 ≤ x.score) (h : prefixTier s q t acc = .ok L) :
    ∀ x ∈ L, 0 ≤ x.score := by
  unfold prefixTier at h
  split at h
  · split at h
    · exact absurd h (by simp)
    · simp only [Except.ok.injEq] at h
      rw [← h]
      exact mergeScored_forall _ _ _ _ hacc (fun r _ => by simpa using prefixScore_nonneg q r)
  · simp only [Except.ok.injEq] at h
    rw [← h]
    exact hacc

lemma ftsTier_nonneg {s : Store} {fq : Str} {t : Nat} {acc L : List SearchResult}
    (hacc : ∀ x ∈ acc, 0 ≤ x.score) (h : ftsTier s fq t acc = .ok L) :
    ∀ x ∈ L, 0 ≤ x.score := by
  unfold ftsTier at h
  split at h
  · split at h
    · exact absurd h (by simp)
    · simp only [Except.ok.injEq] at h
      rw [← h]
      exact mergeScored_forall _ _ _ _ hacc (fun r _ => by simpa using ftsScore_nonneg r)
  · simp only [Except.ok.injEq] at h
    rw [← h]
    exact hacc

lemma fuzzyTier_nonneg {s : Store} {ql : Str} {t : Nat} {acc L : List SearchResult}
    (hacc : ∀ x ∈ acc, 0 ≤ x.score) (h : fuzzyTier s ql t acc = .ok L) :
    ∀ x ∈ L, 0 ≤ x.score := by
  unfold fuzzyTier at h
  split at h
  · split at h
    · exact absurd h (by simp)
    · rename_i fz heq
      simp only [Except.ok.injEq] at h
      rw [← h]
      refine mergeScored_forall _ _ _ _ hacc (fun r hr => ?_)
      have := (search_fuzzy_ok heq).2.2 r hr
      simpa using fuzzyInv_nonneg this
  · simp only [Except.ok.injEq] at h
    rw [← h]
    exact hacc

lemma prefixTier_nodup {s : Store} {q : Str} {t : Nat} {acc L : List SearchResult}
    (hacc : (acc.map (fun r => r.id)).Nodup) (h : prefixTier s q t acc = .ok L) :
    (L.map (fun r => r.id)).Nodup := by
  unfold prefixTier at h
  split at h
  · split at h
    · exact absurd h (by simp)
    · simp only [Except.ok.injEq] at h
      rw [← h]
      exact mergeScored_nodup _ _ _ hacc
  · simp only [Except.ok.injEq] at h
    rw [← h]
    exact hacc

lemma ftsTier_nodup {s : Store} {fq : Str} {t : Nat} {acc L : List SearchResult}
    (hacc : (acc.map (fun r => r.id)).Nodup) (h : ftsTier s fq t acc = .ok L) :
    (L.map (fun r => r.id)).Nodup := by
  unfold ftsTier at h
  split at h
  · split at h
    · exact absurd h (by simp)
    · simp only [Except.ok.injEq] at h
      rw [← h]
      exact mergeScored_nodup _ _ _ hacc
  · simp only [Except.ok.injEq] at h
    rw [← h]
    exact hacc

lemma fuzzyTier_nodup {s : Store} {ql : Str} {t : Nat} {acc L : List SearchResult}
    (hacc : (acc.map (fun r => r.id)).Nodup) (h : fuzzyTier s ql t acc = .ok L) :
    (L.map (fun r => r.id)).Nodup := by
  unfold fuzzyTier at h
  split at h
  · split at h
    · exact absurd h (by simp)
    · simp only [Except.ok.injEq] at h
      rw [← h]
      exact mergeScored_nodup _ _ _ hacc
  · simp only [Except.ok.injEq] at h
    rw [← h]
    exact hacc

lemma gather_nonneg {s : Store} {q ql fq : Str} {t : Nat} {L : List SearchResult}
    (h : gatherResults s q ql fq t = .ok L) : ∀ x ∈ L, 0 ≤ x.score := by
  unfold gatherResults at h
  split at h
  · exact absurd h (by simp)
  · rename_i ex hex
    split at h
    · exact absurd h (by simp)
    · rename_i r1 h1
      split at h
      · exact absurd h (by simp)
      · rename_i r2 h2
        have hacc0 : ∀ x ∈ ex.map (fun r => { r with score := (0 : ℚ) }), 0 ≤ x.score := by
          intro x hx
          rcases List.mem_map.mp hx with ⟨y, _, hy⟩
          rw [← hy]
        have k1 := prefixTier_nonneg hacc0 h1
        have k2 := ftsTier_nonneg k1 h2
        exact fuzzyTier_nonneg k2 h

lemma gather_nodup {s : Store} {q ql fq : Str} {t : Nat} {L : List SearchResult}
    (hex : ∀ w n l, s.exactQ w n = .ok l → (l.map (fun r => r.id)).Nodup)
    (h : gatherResults s q ql fq t = .ok L) : (L.map (fun r => r.id)).Nodup := by
  unfold gatherResults at h
  split at h
  · exact absurd h (by simp)
  · rename_i ex hexq
    split at h
    · exact absurd h (by simp)
    · rename_i r1 h1
      split at h
      · exact absurd h (by simp)
      · rename_i r2 h2
        have hacc0 : ((ex.map (fun r => { r with score := (0 : ℚ) })).map (fun r => r.id)).Nodup := by
          rw [List.map_map]
          exact hex q t ex hexq
        have k1 := prefixTier_nodup hacc0 h1
        have k2 := ftsTier_nodup k1 h2
        exact fuzzyTier_nodup k2 h

lemma sliceWindow_sublist {α : Type _} (l : List α) (limit offset : Nat) :
    (sliceWindow l limit offset).Sublist l := by
  unfold sliceWindow
  exact (List.take_sublist _ _).trans (List.drop_sublist _ _)

lemma sliceWindow_eq {α : Type _} (l : List α) (lim off : Nat) :
    sliceWindow l lim off
      = (l.take (min (min off l.length + lim) l.length)).drop (min off l.length) := by
  unfold sliceWindow
  rw [List.drop_take]

lemma sliceWindow_two_two {α : Type _} (l : List α) :
    sliceWindow l 2 2 = (sliceWindow l 4 0).drop 2 := by
  rw [sliceWindow_eq, sliceWindow_eq]
  rcases Nat.lt_or_ge l.length 2 with hlt | hge
  · have h2 : min 2 l.length = l.length := min_eq_right (le_of_lt hlt)
    have h2' : min (l.length + 2) l.length = l.length := min_eq_right (by omega)
    have h4 : min 4 l.length = l.length := min_eq_right (by omega)
    rw [h2, h2']
    simp only [Nat.zero_min, Nat.zero_add, List.drop_zero, h4, List.take_length,
      List.drop_length]
    exact (List.drop_eq_nil_iff_le.mpr (by omega)).symm
  · have h2 : min 2 l.length = 2 := min_eq_left hge
    rw [h2]
    simp [Nat.zero_min]

lemma search_ok_shape {s : Store} {q : Str} {limit offset : Nat} {res : List SearchResult}
    (h : search_words_offset s q limit offset = .ok res) :
    res = [] ∨ ∃ L,
      gatherResults s (trimStr q) (lowerStr (trimStr q)) (prepare_fts_query (trimStr q))
        (min (offset + limit) (U32 - 1)) = .ok L ∧
      res = sliceWindow (sortByScore L) limit offset := by
  simp only [search_words_offset] at h
  split at h
  · left
    simpa using h.symm
  · split at h
    · exact absurd h (by simp)
    · rename_i L heq
      simp only [Except.ok.injEq] at h
      exact Or.inr ⟨L, heq, h.symm⟩

lemma prefixTier_skip {s : Store} {q : Str} {t : Nat} {acc : List SearchResult}
    (hc : ¬ acc.length % U32 < t) : prefixTier s q t acc = .ok acc := by
  unfold prefixTier
  rw [if_neg hc]

lemma ftsTier_skip {s : Store} {fq : Str} {t : Nat} {acc : List SearchResult}
    (hc : ¬ acc.length % U32 < t) : ftsTier s fq t acc = .ok acc := by
  unfold ftsTier
  rw [if_neg hc]

lemma fuzzyTier_skip {s : Store} {ql : Str} {t : Nat} {acc : List SearchResult}
    (hc : ¬ acc.length % U32 < t) : fuzzyTier s ql t acc = .ok acc := by
  unfold fuzzyTier
  rw [if_neg (fun hand => hc hand.1)]
lemma addSuffixCands_subset (q : Str) :
    ∀ (rs acc : List SearchResult), acc ⊆ addSuffixCands q acc rs := by
  intro rs
  induction rs with
  | nil =>
    intro acc
    exact fun x hx => hx
  | cons r rs ih =>
    intro acc
    simp only [addSuffixCands]
    split
    · exact ih acc
    · cases hk : fuzzyKeep q r with
      | none => exact ih acc
      | some r' =>
        intro x hx
        exact ih (acc ++ [r']) (List.mem_append_left _ hx)

lemma search_fuzzy_ok_shape2 {s : Store} {q : Str} {lim : Nat} {res : List SearchResult}
    {pre : Str} {cands : List SearchResult}
    (hbt : byteTake q (min 2 (utf8Len q)) = some pre)
    (hpc : s.fuzzyPrefixCand (pre ++ ['%']) = .ok cands)
    (h : search_fuzzy s q lim = .ok res) :
    ∃ fuzzy2, (cands.filterMap (fuzzyKeep q)) ⊆ fuzzy2 ∧
      res = (sortByScore fuzzy2).take lim := by
  unfold search_fuzzy at h
  rw [hbt] at h
  dsimp only at h
  rw [hpc] at h
  dsimp only at h
  split at h
  · exact absurd h (by simp)
  · rename_i fuzzy2 heq
    simp only [Except.ok.injEq] at h
    refine ⟨fuzzy2, ?_, h.symm⟩
    split at heq
    · cases hbd : byteDrop q 1 with
      | none =>
        rw [hbd] at heq
        exact absurd heq (by simp)
      | some suffix =>
        rw [hbd] at heq
        dsimp only at heq
        cases hsc : s.fuzzySuffixCand (['_', '%'] ++ suffix ++ ['%']) with
        | error e =>
          rw [hsc] at heq
          exact absurd heq (by simp)
        | ok more =>
          rw [hsc] at heq
          simp only [Except.ok.injEq] at heq
          rw [← heq]
          exact addSuffixCands_subset q more _
    · simp only [Except.ok.injEq] at heq
      rw [← heq]
      exact fun x hx => hx

lemma search_fuzzy_complete {s : Store} {q : Str} {lim : Nat} {res : List SearchResult}
    {pre : Str} {cands : List SearchResult}
    (h : search_fuzzy s q lim = .ok res) (hlt : res.length < lim)
    (hbt : byteTake q (min 2 (utf8Len q)) = some pre)
    (hpc : s.fuzzyPrefixCand (pre ++ ['%']) = .ok cands) :
    ∀ c ∈ cands, (fuzzyKeep q c).isSome → c.id ∈ res.map (fun r => r.id) := by
  obtain ⟨fuzzy2, hsub, rfl⟩ := search_fuzzy_ok_shape2 hbt hpc h
  intro c hc hkeep
  obtain ⟨r, hr⟩ := Option.isSome_iff_exists.mp hkeep
  have hrmem : r ∈ cands.filterMap (fuzzyKeep q) := List.mem_filterMap.mpr ⟨c, hc, hr⟩
  have hr2 : r ∈ sortByScore fuzzy2 := ((sortByScore_perm fuzzy2).symm.subset) (hsub hrmem)
  have hlen : (sortByScore fuzzy2).length ≤ lim := by
    have hl := List.length_take lim (sortByScore fuzzy2)
    omega
  have hres : (sortByScore fuzzy2).take lim = sortByScore fuzzy2 :=
    List.take_of_length_le hlen
  rw [hres]
  exact List.mem_map.mpr ⟨r, hr2, (fuzzyKeep_some hr).2.1⟩

/-- C1: the claim says a query whose prepared index query is empty (for
example `*`, which escaping strips to nothing) must short-circuit to no
results without invoking the index. The code has no such check: it
passes the empty prepared query straight to `search_fts`, and since
SQLite FTS5 rejects an empty MATCH expression (modelled by `sC1`), the
whole search returns a failure instead of no results. -/
theorem c1_empty_prepared_query_invokes_index :
    prepare_fts_query ("*".data) = [] ∧
    search_words_offset sC1 ("*".data) 10 0 = .error .storeError :=
  ⟨rfl, rfl⟩

/-- C2: the claim says no internal operation panics on arbitrary
Unicode. The fuzzy tier's candidate construction slices the query at
byte offset `min(2, len)`; for `日本語` (first character 3 bytes) offset
2 is not a character boundary, so the slice panics — the search aborts
with a panic even over a store with no rows at all. -/
theorem c2_fuzzy_candidate_slice_panics :
    search_words_offset emptyStore ("日本語".data) 10 0 = .error .panicked :=
  rfl
/-- C3: for every store, query, limit and offset, whenever
`search_words_offset` returns a result list, that list is sorted
non-decreasing by `score` (the accumulated candidates are stably sorted
ascending before the pagination window is cut, and a sublist of a sorted
list is sorted). -/
theorem c3_results_sorted_by_score (s : Store) (q : Str) (limit offset : Nat)
    (res : List SearchResult) (h : search_words_offset s q limit offset = .ok res) :
    List.Pairwise (fun a b : SearchResult => a.score ≤ b.score) res := by
  rcases search_ok_shape h with rfl | ⟨L, _, rfl⟩
  · exact List.Pairwise.nil
  · exact List.Pairwise.sublist (sliceWindow_sublist _ _ _) (sortByScore_pairwise L)

/-- Witness for C3 at a concrete store and query. -/
theorem c3_witness :
    ∃ res, search_words_offset emptyStore ("hi".data) 5 0 = .ok res ∧
      List.Pairwise (fun a b : SearchResult => a.score ≤ b.score) res :=
  ⟨[], rfl, c3_results_sorted_by_score emptyStore ("hi".data) 5 0 [] rfl⟩

/-- C4: for every store whose exact lookup returns rows with pairwise
distinct ids (guaranteed in the code by the `words` table's
`INTEGER PRIMARY KEY`), no two results of one search invocation share an
id: the exact tier seeds the list with distinct ids and every later tier
appends a candidate only after a linear id-membership check. -/
theorem c4_no_duplicate_ids (s : Store)
    (hex : ∀ w n l, s.exactQ w n = .ok l → (l.map (fun r => r.id)).Nodup)
    (q : Str) (limit offset : Nat) (res : List SearchResult)
    (h : search_words_offset s q limit offset = .ok res) :
    (res.map (fun r => r.id)).Nodup := by
  rcases search_ok_shape h with rfl | ⟨L, hg, rfl⟩
  · simp
  · have hL := gather_nodup hex hg
    have hsorted : ((sortByScore L).map (fun r => r.id)).Nodup :=
      hL.perm (((sortByScore_perm L).map _).symm)
    exact List.Nodup.sublist ((sliceWindow_sublist _ _ _).map _) hsorted

/-- Witness for C4 at a store whose exact lookup returns two rows. -/
theorem c4_witness :
    ∃ res, search_words_offset s4 ("ab".data) 5 0 = .ok res ∧
      (res.map (fun r => r.id)).Nodup :=
  ⟨_, rfl, c4_no_duplicate_ids s4 (by intro w n l hl; cases hl; decide)
    ("ab".data) 5 0 _ rfl⟩

/-- C5 counterexample: at the concrete store `sC5` and query `wx` there
are four eligible matches (`search(wx, 4, 0)` returns four results), yet
id 3 appears in `search(wx, 4, 0)` and in neither `search(wx, 2, 0)` nor
`search(wx, 2, 2)`: the union of the two pages' id sets is strictly
smaller than the id set of `search(wx, 4, 0)`, refuting the claimed
pagination consistency. -/
theorem c5_counterexample :
    (idsOf (search_words_offset sC5 ("wx".data) 4 0)).length = 4 ∧
    (3 : Int) ∈ idsOf (search_words_offset sC5 ("wx".data) 4 0) ∧
    (3 : Int) ∉ idsOf (search_words_offset sC5 ("wx".data) 2 0) ∧
    (3 : Int) ∉ idsOf (search_words_offset sC5 ("wx".data) 2 2) := by
  have h40 : idsOf (search_words_offset sC5 ("wx".data) 4 0) = [3, 4, 1, 2] := by
    with_unfolding_all rfl
  have h20 : idsOf (search_words_offset sC5 ("wx".data) 2 0) = [1, 2] := by
    with_unfolding_all rfl
  have h22 : idsOf (search_words_offset sC5 ("wx".data) 2 2) = [1, 2] := by
    with_unfolding_all rfl
  rw [h40, h20, h22]
  refine ⟨rfl, by decide, by decide, by decide⟩

/-- C5 as amended: `search(q, 2, 2)` and `search(q, 4, 0)` share
`totalNeeded = 4` and hence gather and sort the identical candidate
list, so `search(q, 2, 2)` is exactly `search(q, 4, 0)` with its first
two results dropped; the originally claimed union equality with
`search(q, 2, 0)` fails because that call gathers with
`totalNeeded = 2` and may stop at an earlier tier. -/
theorem c5_pagination_drop (s : Store) (q : Str) :
    search_words_offset s q 2 2
      = Except.map (List.drop 2) (search_words_offset s q 4 0) := by
  simp only [search_words_offset]
  by_cases hie : (trimStr q).isEmpty = true
  · simp [hie, Except.map]
  · rw [if_neg hie, if_neg hie]
    have harg : min (2 + 2) (U32 - 1) = min (0 + 4) (U32 - 1) := by norm_num
    rw [harg]
    cases hg : gatherResults s (trimStr q) (lowerStr (trimStr q))
        (prepare_fts_query (trimStr q)) (min (0 + 4) (U32 - 1)) with
    | error e => rfl
    | ok L =>
      simp only [Except.map]
      rw [sliceWindow_two_two]

/-- C6: the edit-distance function computes Levenshtein distance over
code points: `levenshtein("kitten","sitting") = 3`,
`levenshtein("","abc") = 3`, the distance to or from an empty string is
the other string's code-point length, and `levenshtein(x,x) = 0` for
every string `x`. -/
theorem c6_levenshtein_boundary :
    levenshtein_distance ("kitten".data) ("sitting".data) = 3 ∧
    levenshtein_distance [] ("abc".data) = 3 ∧
    (∀ b : Str, levenshtein_distance [] b = b.length) ∧
    (∀ a : Str, levenshtein_distance a [] = a.length) ∧
    (∀ x : Str, levenshtein_distance x x = 0) :=
  ⟨by decide, by decide, levenshtein_nil_left, levenshtein_nil_right, levenshtein_self⟩

/-- C7: the fuzzy tier keeps a candidate exactly when its Levenshtein
distance `d` to the lowercased query satisfies `0 < d ≤ 2`, assigns the
kept candidate the score `3.0 + d`, and its returned list is sorted
ascending by score, truncated to the requested count, with every element
satisfying the kept-candidate property; conversely, whenever the result
was not truncated, every kept prefix-batch candidate's id appears in the
result. -/
theorem c7_fuzzy_tier_spec :
    (∀ (q : Str) (c : SearchResult),
        (fuzzyKeep q c).isSome ↔
          (0 < levenshtein_distance q (lowerStr c.word) ∧
            levenshtein_distance q (lowerStr c.word) ≤ MAX_FUZZY_DISTANCE)) ∧
    (∀ (q : Str) (c r : SearchResult), fuzzyKeep q c = some r →
        r.score = 3 + (levenshtein_distance q (lowerStr c.word) : ℚ)) ∧
    (∀ (s : Store) (q : Str) (lim : Nat) (res : List SearchResult),
        search_fuzzy s q lim = .ok res →
          res.length ≤ lim ∧
          List.Pairwise (fun a b : SearchResult => a.score ≤ b.score) res ∧
          ∀ r ∈ res, fuzzyInv q r) ∧
    (∀ (s : Store) (q : Str) (lim : Nat) (res : List SearchResult)
        (pre : Str) (cands : List SearchResult),
        search_fuzzy s q lim = .ok res → res.length < lim →
        byteTake q (min 2 (utf8Len q)) = some pre →
        s.fuzzyPrefixCand (pre ++ ['%']) = .ok cands →
        ∀ c ∈ cands, (fuzzyKeep q c).isSome → c.id ∈ res.map (fun r => r.id)) := by
  refine ⟨?_, ?_, fun s q lim res h => search_fuzzy_ok h,
    fun s q lim res pre cands h hlt hbt hpc => search_fuzzy_complete h hlt hbt hpc⟩
  · intro q c
    simp only [fuzzyKeep]
    split
    · rename_i hc
      exact ⟨fun _ => hc, fun _ => rfl⟩
    · rename_i hc
      exact ⟨fun hs => absurd hs (by simp), fun hcond => absurd hcond hc⟩
  · intro q c r h
    have hk := fuzzyKeep_some h
    have := hk.2.2.2.2
    rw [hk.1] at this
    exact this

/-- Witness for C7 at a concrete store: the query `helo` finds `hello`
at distance 1 with score 4. -/
theorem c7_witness :
    ∃ res, search_fuzzy sC7 ("helo".data) 10 = .ok res ∧ res.length ≤ 10 ∧
      List.Pairwise (fun a b : SearchResult => a.score ≤ b.score) res ∧
      ∀ r ∈ res, fuzzyInv ("helo".data) r :=
  ⟨_, rfl, c7_fuzzy_tier_spec.2.2.1 sC7 ("helo".data) 10 _ rfl⟩

/-- C8: if a word exists verbatim in the store (one exact row, headword
equal to the trimmed, non-empty query), then `search(word, 1, 0)`
returns exactly that entry with score 0.0 as its first element; and 0 is
the minimum possible score, since every result of every search has a
non-negative score. -/
theorem c8_exact_verbatim_first :
    (∀ (s : Store) (w : Str) (r : SearchResult),
        trimStr w = w → w ≠ [] → s.exactQ w 1 = .ok [r] → r.word = w →
        ∃ r0, search_words_offset s w 1 0 = .ok [r0] ∧ r0.word = w ∧ r0.score = 0) ∧
    (∀ (s : Store) (q : Str) (limit offset : Nat) (res : List SearchResult),
        search_words_offset s q limit offset = .ok res → ∀ x ∈ res, 0 ≤ x.score) := by
  constructor
  · intro s w r htrim hne hexq hword
    refine ⟨{ r with score := 0 }, ?_, by simpa using hword, rfl⟩
    have hie : w.isEmpty = false := by
      cases w with
      | nil => exact absurd rfl hne
      | cons a l => rfl
    simp only [search_words_offset, htrim, hie, Bool.false_eq_true, if_false]
    have ht1 : min (0 + 1) (U32 - 1) = 1 := by norm_num [U32]
    rw [ht1]
    have hg : gatherResults s w (lowerStr w) (prepare_fts_query w) 1
        = .ok [{ r with score := 0 }] := by
      unfold gatherResults search_exact
      rw [hexq]
      dsimp only [List.map_cons, List.map_nil]
      have hskip : ¬ ([{ r with score := (0 : ℚ) }].length % U32 < 1) := by
        norm_num [U32]
      rw [prefixTier_skip hskip]
      dsimp only
      rw [ftsTier_skip hskip]
      dsimp only
      rw [fuzzyTier_skip hskip]
    rw [hg]
    dsimp only
    have hsort : sortByScore [{ r with score := (0 : ℚ) }] = [{ r with score := (0 : ℚ) }] := by
      simp [sortByScore, List.insertionSort]
    rw [hsort]
    simp [sliceWindow]
  · intro s q limit offset res h x hx
    rcases search_ok_shape h with rfl | ⟨L, hg, rfl⟩
    · exact absurd hx (by simp)
    · have hx2 : x ∈ sortByScore L := (sliceWindow_sublist _ _ _).subset hx
      exact gather_nonneg hg x ((sortByScore_perm L).subset hx2)

/-- Witness for C8 at a concrete store holding `hello`. -/
theorem c8_witness :
    ∃ r0, search_words_offset s8 ("hello".data) 1 0 = .ok [r0] ∧
      r0.word = "hello".data ∧ r0.score = 0 :=
  c8_exact_verbatim_first.1 s8 ("hello".data) r8 (by decide) (by decide) rfl rfl

/-- C9: preview truncation is total (never panics, even when the cut
point falls inside a multi-byte character), cuts at a valid character
boundary, appends the ellipsis marker exactly when truncation occurred,
and the result's byte length is at most the original's plus the
marker's. -/
theorem c9_truncate_preview_safe (text : Str) (max_len : Nat) :
    ∃ res, truncate_preview text max_len = some res ∧
      utf8Len res ≤ utf8Len text + utf8Len ellipsisStr ∧
      (utf8Len text ≤ max_len → res = text) ∧
      (max_len < utf8Len text →
        isCharBoundary text (findBoundaryDown text max_len) = true ∧
        ∃ pre, res = pre ++ ellipsisStr ∧ utf8Len pre ≤ max_len) :=
  truncate_preview_spec text max_len

/-- Witness for C9 at the repository's own multi-byte regression input:
byte 22 of the chemical-formula text falls inside the 3-byte character
`₁`. -/
theorem c9_witness :
    ∃ res, truncate_preview chemText 22 = some res ∧
      utf8Len res ≤ utf8Len chemText + utf8Len ellipsisStr ∧
      isCharBoundary chemText (findBoundaryDown chemText 22) = true ∧
      ∃ pre, res = pre ++ ellipsisStr ∧ utf8Len pre ≤ 22 := by
  obtain ⟨res, h1, h2, _, h4⟩ := c9_truncate_preview_safe chemText 22
  have hx := h4 (by decide)
  exact ⟨res, h1, h2, hx.1, hx.2⟩

/-- C10: the Levenshtein distance function is symmetric in its two
arguments (for unequal lengths via the argument swap, and for equal
lengths because the underlying table is symmetric). -/
theorem c10_levenshtein_symm (a b : Str) :
    levenshtein_distance a b = levenshtein_distance b a :=
  levenshtein_symm_lemma a b

end DictApp
